import Mathlib

/-!
Shallow embedding of the `difff` VS Code extension (TypeScript sources) and
proofs of the specification claims about it.

The embedded operations come from:
* `src/webviewProvider.ts` — `parseDiff` (lines 151-204) and the comment
  anchoring / thread filter inside `renderHunks` (lines 2301-2364);
* `src/diffExplorer.ts` — `CommentService.getComments`;
* `src/commentExplorer.ts` — `generateKeyFromComment`, the key-counting loop
  of `getCommentKeys`, and `removeAllCommentsForKey`.

JavaScript idioms are modelled explicitly:
* a field that holds either a number or the empty string `""` becomes an
  `Option Nat` (`none` is `""`);
* JavaScript truthiness of such a value (`0` and `""` are falsy) is `jsTruthy`;
* `a || b` on such values is `jsOrOpt`;
* an optional string field (possibly `undefined`) becomes an `Option String`,
  with `none` as `undefined`; string truthiness (`""` and `undefined` falsy)
  is `strTruthy`; template interpolation of `undefined` prints `"undefined"`
  (`jsToString`);
* the unanchored regular expression `/@@ -(\d+),?\d* \+(\d+),?\d* @@/` is
  modelled by `matchHunkHeader`, which scans for the leftmost position where
  the pattern matches, with maximal-munch digit runs (the pattern is
  deterministic: after a maximal `\d+`, the optional `,` branch succeeds
  exactly when the JavaScript engine's backtracking search does).
-/

namespace Difff

/-- The three line kinds of the TypeScript union type
`"addition" | "deletion" | "context"`. -/
inductive LineType where
  | addition
  | deletion
  | context
deriving DecidableEq, Repr

/-- One parsed diff line, as built by `parseDiff` in `webviewProvider.ts`:
`{ type, content, oldLineNum, newLineNum }`.  The TypeScript code stores a
number in a side's field when that side is present and the empty string `""`
otherwise; `none` models `""`. -/
structure DiffLine where
  type : LineType
  content : String
  oldLineNum : Option Nat
  newLineNum : Option Nat
deriving DecidableEq, Repr

/-- One hunk of `parseDiff`'s output: `{ header, lines }`. -/
structure Hunk where
  header : String
  lines : List DiffLine
deriving DecidableEq, Repr

/-- A stored review comment (`DiffComment` in `diffExplorer.ts`).  The
`baseRef`/`compareRef` fields are optional in TypeScript (`baseRef?: string`);
`none` models `undefined`.  `timestamp` is the `Date.now()` creation time. -/
structure DiffComment where
  id : String
  filePath : String
  lineNumber : Nat
  lineType : LineType
  content : String
  author : String
  timestamp : Nat
  baseRef : Option String
  compareRef : Option String
deriving DecidableEq, Repr

/-! ### JavaScript string primitives -/

/-- `s.startsWith(p)` on JavaScript strings. -/
def jsStartsWith (s p : String) : Bool :=
  p.data.isPrefixOf s.data

/-- `s.substring(1)`: drop the first character (clamps on `""`). -/
def jsSubstringFrom1 (s : String) : String :=
  ⟨s.data.drop 1⟩

/-! ### The hunk-header regular expression

`line.match(/@@ -(\d+),?\d* \+(\d+),?\d* @@/)` with
`parseInt(match[1])`, `parseInt(match[2])`. -/

/-- Maximal run of decimal digits at the head of `cs`, folded into a number;
fails when the first character is not a digit (the `\d+` atom, with
`parseInt` applied to the capture). -/
def digitsRun : List Char → Nat → Option (Nat × List Char)
  | [], acc => some (acc, [])
  | c :: cs, acc =>
    if c.isDigit then digitsRun cs (acc * 10 + (c.toNat - '0'.toNat))
    else some (acc, c :: cs)

/-- The `\d+` atom followed by `parseInt`: at least one digit, maximal munch. -/
def digits1 : List Char → Option (Nat × List Char)
  | [] => none
  | c :: cs =>
    if c.isDigit then digitsRun cs (c.toNat - '0'.toNat)
    else none

/-- The `,?\d*` fragment: an optional comma followed by a maximal digit run.
After a maximal `\d+` the next character is not a digit, so when no comma is
present `\d*` can only match the empty string; backtracking never helps, and
the fragment is deterministic. -/
def skipCommaDigits : List Char → List Char
  | ',' :: cs =>
    (match digitsRun cs 0 with
     | some (_, rest) => rest
     | none => cs)
  | cs => cs

/-- Match `@@ -(\d+),?\d* \+(\d+),?\d* @@` anchored at the head of `cs`,
returning `(parseInt(m1), parseInt(m2))`. -/
def matchHeaderAt (cs : List Char) : Option (Nat × Nat) :=
  match cs with
  | '@' :: '@' :: ' ' :: '-' :: cs1 =>
    match digits1 cs1 with
    | none => none
    | some (a, cs2) =>
      match skipCommaDigits cs2 with
      | ' ' :: '+' :: cs3 =>
        match digits1 cs3 with
        | none => none
        | some (b, cs4) =>
          match skipCommaDigits cs4 with
          | ' ' :: '@' :: '@' :: _ => some (a, b)
          | _ => none
      | _ => none
  | _ => none

/-- Leftmost match of the (unanchored) hunk-header pattern in `cs`. -/
def findHeaderMatch : List Char → Option (Nat × Nat)
  | [] => none
  | c :: cs =>
    match matchHeaderAt (c :: cs) with
    | some r => some r
    | none => findHeaderMatch cs

/-- `line.match(/@@ -(\d+),?\d* \+(\d+),?\d* @@/)`, keeping the two parsed
capture groups when the line contains a match. -/
def matchHunkHeader (line : String) : Option (Nat × Nat) :=
  findHeaderMatch line.data

/-! ### `parseDiff` (`webviewProvider.ts`, lines 151-204) -/

/-- The loop body state of `parseDiff`: the current hunk (if any) and the two
running counters `oldLineNum`, `newLineNum`.  Lines before any `@@` line are
dropped (`currentHunk` is `null`); an `@@` line flushes the current hunk,
resets the counters only when the header regular expression matches, and
starts a fresh hunk; `+`/`-`/space-or-empty lines are appended to the current
hunk with the counters assigned and post-incremented; any other line (for
example `\ No newline at end of file`) is skipped. -/
def parseDiffGo : List String → Option Hunk → Nat → Nat → List Hunk
  | [], cur, _, _ =>
    match cur with
    | some h => [h]
    | none => []
  | line :: rest, cur, o, n =>
    if jsStartsWith line "@@" then
      let flushed : List Hunk :=
        match cur with
        | some h => [h]
        | none => []
      match matchHunkHeader line with
      | some (o₂, n₂) => flushed ++ parseDiffGo rest (some ⟨line, []⟩) o₂ n₂
      | none => flushed ++ parseDiffGo rest (some ⟨line, []⟩) o n
    else
      match cur with
      | none => parseDiffGo rest none o n
      | some h =>
        if jsStartsWith line "+" then
          parseDiffGo rest
            (some ⟨h.header, h.lines ++
              [⟨.addition, jsSubstringFrom1 line, none, some n⟩]⟩) o (n + 1)
        else if jsStartsWith line "-" then
          parseDiffGo rest
            (some ⟨h.header, h.lines ++
              [⟨.deletion, jsSubstringFrom1 line, some o, none⟩]⟩) (o + 1) n
        else if jsStartsWith line " " || line == "" then
          parseDiffGo rest
            (some ⟨h.header, h.lines ++
              [⟨.context, jsSubstringFrom1 line, some o, some n⟩]⟩)
            (o + 1) (n + 1)
        else
          parseDiffGo rest (some h) o n

/-- `parseDiff(lines)`: the hunk list produced from the split diff text. -/
def parseDiff (lines : List String) : List Hunk :=
  parseDiffGo lines none 0 0

/-! ### Numbering predicates for the parsed lines -/

/-- The counters `(oldLineNum, newLineNum)` after the parser has appended the
given lines, starting from `(o, n)`: a deletion advances the old side, an
addition the new side, a context line both. -/
def stepCounters : List DiffLine → Nat → Nat → Nat × Nat
  | [], o, n => (o, n)
  | l :: ls, o, n =>
    match l.type with
    | .addition => stepCounters ls o (n + 1)
    | .deletion => stepCounters ls (o + 1) n
    | .context => stepCounters ls (o + 1) (n + 1)

/-- The lines carry exactly the consecutive numbers the counters assign when
they start at `(o, n)`: each deletion/context line carries the next old
number, each addition/context line the next new number, and the other side's
field is absent (`none`, i.e. the TypeScript `""`). -/
def numberedFrom : List DiffLine → Nat → Nat → Bool
  | [], _, _ => true
  | l :: ls, o, n =>
    match l.type with
    | .addition =>
      l.oldLineNum == none && l.newLineNum == some n && numberedFrom ls o (n + 1)
    | .deletion =>
      l.oldLineNum == some o && l.newLineNum == none && numberedFrom ls (o + 1) n
    | .context =>
      l.oldLineNum == some o && l.newLineNum == some n
        && numberedFrom ls (o + 1) (n + 1)

/-- Per-kind field shape: an addition has only `newLineNum`, a deletion only
`oldLineNum`, a context line both. -/
def lineShapeOK (l : DiffLine) : Bool :=
  match l.type with
  | .addition => l.oldLineNum == none && l.newLineNum.isSome
  | .deletion => l.oldLineNum.isSome && l.newLineNum == none
  | .context => l.oldLineNum.isSome && l.newLineNum.isSome

/-- Invariant carried by the pending hunk: whenever its header line matches
the hunk-header pattern at `(o₀, n₀)`, the lines collected so far are numbered
consecutively from `(o₀, n₀)` and the running counters equal the counters
after those lines. -/
def pendingInv (h : Hunk) (o n : Nat) : Prop :=
  ∀ o₀ n₀, matchHunkHeader h.header = some (o₀, n₀) →
    numberedFrom h.lines o₀ n₀ = true ∧ stepCounters h.lines o₀ n₀ = (o, n)

/-! ### Zero-numbering of a first hunk whose header never matched -/

/-- Whether a parsed line is an addition (leaves the old counter alone). -/
def isAddition (l : DiffLine) : Bool :=
  match l.type with
  | .addition => true
  | _ => false

/-- Whether a parsed line is a deletion (leaves the new counter alone). -/
def isDeletion (l : DiffLine) : Bool :=
  match l.type with
  | .deletion => true
  | _ => false

/-- No line of `ls` touches the old-side counter (all additions). -/
def noOldSide (ls : List DiffLine) : Bool :=
  ls.all isAddition

/-- No line of `ls` touches the new-side counter (all deletions). -/
def noNewSide (ls : List DiffLine) : Bool :=
  ls.all isDeletion

/-- The first deletion-or-context line of `ls`, if any, carries old number 0. -/
def firstOldZero : List DiffLine → Bool
  | [] => true
  | l :: ls =>
    match l.type with
    | .addition => firstOldZero ls
    | _ => l.oldLineNum == some 0

/-- The first addition-or-context line of `ls`, if any, carries new number 0. -/
def firstNewZero : List DiffLine → Bool
  | [] => true
  | l :: ls =>
    match l.type with
    | .deletion => firstNewZero ls
    | _ => l.newLineNum == some 0

/-! ### Comment anchoring in `renderHunks` (`webviewProvider.ts` 2301-2364) -/

/-- JavaScript truthiness of a number-or-`""` value: `""` and `0` are falsy. -/
def jsTruthy : Option Nat → Bool
  | none => false
  | some k => k != 0

/-- JavaScript `a || b` on number-or-`""` values: the first operand when it is
truthy, otherwise the second. -/
def jsOrOpt (a b : Option Nat) : Option Nat :=
  if jsTruthy a then a else b

/-- `const lineNumber = line.newLineNum || line.oldLineNum;` — the anchor
number renderHunks uses for the add-comment button and the thread filter. -/
def anchorOf (l : DiffLine) : Option Nat :=
  jsOrOpt l.newLineNum l.oldLineNum

/-- The anchor as the specification describes it: the `newLineNum` for
addition/context lines and the `oldLineNum` for deletion lines.  This
definition follows the spec's words; `anchorOf` follows the code.  The two are
compared in the claim-7 theorems. -/
def specAnchorOf (l : DiffLine) : Option Nat :=
  match l.type with
  | .deletion => l.oldLineNum
  | _ => l.newLineNum

/-- `comments.filter(c => c.lineNumber === lineNumber && c.lineType ===
line.type)` — the comments rendered as the thread of one diff line.  The
strict comparison of the number `c.lineNumber` with the number-or-`""` anchor
is `anchorOf l == some c.lineNumber`. -/
def lineCommentsFor (comments : List DiffComment) (l : DiffLine) :
    List DiffComment :=
  comments.filter (fun c => anchorOf l == some c.lineNumber
    && c.lineType == l.type)

/-! ### `CommentService.getComments` (`diffExplorer.ts`) -/

/-- `getComments(filePath, baseRef, compareRef)`: the stored comments whose
`filePath`, `baseRef` and `compareRef` all strictly equal the query. -/
def getComments (allComments : List DiffComment) (filePath : String)
    (baseRef compareRef : Option String) : List DiffComment :=
  allComments.filter (fun c => c.filePath == filePath
    && c.baseRef == baseRef && c.compareRef == compareRef)

/-- The comments presented at one rendered line of one file's overlay: the
per-file, per-context `getComments` result narrowed to the line's anchor and
kind, exactly as `renderHunks` receives and filters them. -/
def threadsFor (stored : List DiffComment) (filePath : String)
    (baseRef compareRef : Option String) (l : DiffLine) : List DiffComment :=
  lineCommentsFor (getComments stored filePath baseRef compareRef) l

/-! ### Key grouping in `commentExplorer.ts` -/

/-- JavaScript truthiness of a string-or-`undefined` value. -/
def strTruthy : Option String → Bool
  | none => false
  | some s => s != ""

/-- Template interpolation of a possibly-`undefined` string. -/
def jsToString : Option String → String
  | none => "undefined"
  | some s => s

/-- `generateKeyFromComment` (`commentExplorer.ts` 135-144). -/
def generateKeyFromComment (c : DiffComment) : String :=
  if c.compareRef == some "working" then
    jsToString c.baseRef ++ " → Working Directory"
  else if strTruthy c.baseRef && strTruthy c.compareRef then
    jsToString c.baseRef ++ " → " ++ jsToString c.compareRef
  else if strTruthy c.baseRef then
    jsToString c.baseRef
  else if strTruthy c.compareRef then
    jsToString c.compareRef
  else
    "Unknown"

/-- One step of the `keyMap` loop of `getCommentKeys`: increment an existing
key's count in place, or append the key with count 1.  The association list
models the insertion-ordered JavaScript `Map`. -/
def bump : List (String × Nat) → String → List (String × Nat)
  | [], k => [(k, 1)]
  | (k', n) :: m, k =>
    if k' = k then (k', n + 1) :: m else (k', n) :: bump m k

/-- The `keyMap` loop of `getCommentKeys` (`commentExplorer.ts` 81-114):
group the comments by their generated key, counting per key. -/
def buildKeyCounts : List DiffComment → List (String × Nat) →
    List (String × Nat)
  | [], m => m
  | c :: cs, m => buildKeyCounts cs (bump m (generateKeyFromComment c))

/-- `Map.get`: the count recorded for a key, if the key is present. -/
def lookupKey : List (String × Nat) → String → Option Nat
  | [], _ => none
  | (k', n) :: m, k => if k' = k then some n else lookupKey m k

/-- The number of comments whose generated key is `k`. -/
def countForKey (cs : List DiffComment) (k : String) : Nat :=
  (cs.filter (fun c => generateKeyFromComment c == k)).length

/-- `removeAllCommentsForKey` (`commentExplorer.ts` 154-165): keep exactly the
comments whose `(baseRef, compareRef)` does not match the key's pair. -/
def removeAllCommentsForKey (allComments : List DiffComment)
    (baseRef compareRef : Option String) : List DiffComment :=
  allComments.filter
    (fun c => !(c.baseRef == baseRef && c.compareRef == compareRef))

theorem stepCounters_append (xs ys : List DiffLine) (o n : Nat) :
    stepCounters (xs ++ ys) o n =
      stepCounters ys (stepCounters xs o n).1 (stepCounters xs o n).2 := by
  induction xs generalizing o n with
  | nil => simp [stepCounters]
  | cons l ls ih =>
    rcases l with ⟨t, c, a, b⟩
    cases t <;> simp [stepCounters, ih]

theorem numberedFrom_append (xs ys : List DiffLine) (o n : Nat) :
    numberedFrom (xs ++ ys) o n =
      (numberedFrom xs o n
        && numberedFrom ys (stepCounters xs o n).1 (stepCounters xs o n).2) := by
  induction xs generalizing o n with
  | nil => simp [numberedFrom, stepCounters]
  | cons l ls ih =>
    rcases l with ⟨t, c, a, b⟩
    cases t <;> simp [numberedFrom, stepCounters, ih, Bool.and_assoc]

/-! ### The parser invariant: hunks with a matched header are numbered from
the header's declared starts -/
theorem pendingInv_push_addition (h : Hunk) (o n : Nat) (s : String) :
    pendingInv h o n →
    pendingInv ⟨h.header, h.lines ++ [⟨.addition, s, none, some n⟩]⟩ o (n + 1) := by
  intro hinv o₀ n₀ hm
  obtain ⟨h1, h2⟩ := hinv o₀ n₀ hm
  refine ⟨?_, ?_⟩
  · simp [numberedFrom_append, h1, h2, numberedFrom]
  · simp [stepCounters_append, h2, stepCounters]

theorem pendingInv_push_deletion (h : Hunk) (o n : Nat) (s : String) :
    pendingInv h o n →
    pendingInv ⟨h.header, h.lines ++ [⟨.deletion, s, some o, none⟩]⟩ (o + 1) n := by
  intro hinv o₀ n₀ hm
  obtain ⟨h1, h2⟩ := hinv o₀ n₀ hm
  refine ⟨?_, ?_⟩
  · simp [numberedFrom_append, h1, h2, numberedFrom]
  · simp [stepCounters_append, h2, stepCounters]

theorem pendingInv_push_context (h : Hunk) (o n : Nat) (s : String) :
    pendingInv h o n →
    pendingInv ⟨h.header, h.lines ++ [⟨.context, s, some o, some n⟩]⟩
      (o + 1) (n + 1) := by
  intro hinv o₀ n₀ hm
  obtain ⟨h1, h2⟩ := hinv o₀ n₀ hm
  refine ⟨?_, ?_⟩
  · simp [numberedFrom_append, h1, h2, numberedFrom]
  · simp [stepCounters_append, h2, stepCounters]

theorem pendingInv_new_matched (line : String) (o₂ n₂ : Nat)
    (hm : matchHunkHeader line = some (o₂, n₂)) :
    pendingInv ⟨line, []⟩ o₂ n₂ := by
  intro o₀ n₀ hm'
  have h2 : matchHunkHeader line = some (o₀, n₀) := hm'
  rw [hm] at h2
  injection h2 with h2
  rw [Prod.mk.injEq] at h2
  obtain ⟨rfl, rfl⟩ := h2
  exact ⟨rfl, rfl⟩

theorem pendingInv_new_unmatched (line : String) (o n : Nat)
    (hm : matchHunkHeader line = none) :
    pendingInv ⟨line, []⟩ o n := by
  intro o₀ n₀ hm'
  have h2 : matchHunkHeader line = some (o₀, n₀) := hm'
  rw [hm] at h2
  simp at h2

theorem parseDiffGo_numbered (rest : List String) :
    ∀ (cur : Option Hunk) (o n : Nat),
      (∀ h, cur = some h → pendingInv h o n) →
      ∀ hk ∈ parseDiffGo rest cur o n,
        ∀ o₀ n₀, matchHunkHeader hk.header = some (o₀, n₀) →
          numberedFrom hk.lines o₀ n₀ = true := by
  induction rest with
  | nil =>
    intro cur o n hinv hk hmem o₀ n₀ hmatch
    cases cur with
    | none => simp [parseDiffGo] at hmem
    | some h =>
      simp [parseDiffGo] at hmem
      subst hmem
      exact ((hinv _ rfl) o₀ n₀ hmatch).1
  | cons line rest ih =>
    intro cur o n hinv hk hmem o₀ n₀ hmatch
    by_cases hs : jsStartsWith line "@@"
    · cases hm : matchHunkHeader line with
      | some p =>
        obtain ⟨o₂, n₂⟩ := p
        cases cur with
        | none =>
          simp [parseDiffGo, hs, hm] at hmem
          exact ih _ _ _
            (by intro h' hh; injection hh with hh; subst hh
                exact pendingInv_new_matched line o₂ n₂ hm)
            hk hmem o₀ n₀ hmatch
        | some h =>
          simp [parseDiffGo, hs, hm] at hmem
          rcases hmem with rfl | hin
          · exact ((hinv _ rfl) o₀ n₀ hmatch).1
          · exact ih _ _ _
              (by intro h' hh; injection hh with hh; subst hh
                  exact pendingInv_new_matched line o₂ n₂ hm)
              hk hin o₀ n₀ hmatch
      | none =>
        cases cur with
        | none =>
          simp [parseDiffGo, hs, hm] at hmem
          exact ih _ _ _
            (by intro h' hh; injection hh with hh; subst hh
                exact pendingInv_new_unmatched line o n hm)
            hk hmem o₀ n₀ hmatch
        | some h =>
          simp [parseDiffGo, hs, hm] at hmem
          rcases hmem with rfl | hin
          · exact ((hinv _ rfl) o₀ n₀ hmatch).1
          · exact ih _ _ _
              (by intro h' hh; injection hh with hh; subst hh
                  exact pendingInv_new_unmatched line o n hm)
              hk hin o₀ n₀ hmatch
    · cases cur with
      | none =>
        simp [parseDiffGo, hs] at hmem
        exact ih none o n (by intro h' hh; exact absurd hh (by simp))
          hk hmem o₀ n₀ hmatch
      | some h =>
        by_cases hp : jsStartsWith line "+"
        · simp [parseDiffGo, hs, hp] at hmem
          refine ih _ _ _ ?_ hk hmem o₀ n₀ hmatch
          intro h' hh
          injection hh with hh
          subst hh
          exact pendingInv_push_addition h o n _ (hinv h rfl)
        · by_cases hd : jsStartsWith line "-"
          · simp [parseDiffGo, hs, hp, hd] at hmem
            refine ih _ _ _ ?_ hk hmem o₀ n₀ hmatch
            intro h' hh
            injection hh with hh
            subst hh
            exact pendingInv_push_deletion h o n _ (hinv h rfl)
          · by_cases hc : (jsStartsWith line " " || line == "") = true
            · simp [parseDiffGo, hs, hp, hd, hc] at hmem
              refine ih _ _ _ ?_ hk hmem o₀ n₀ hmatch
              intro h' hh
              injection hh with hh
              subst hh
              exact pendingInv_push_context h o n _ (hinv h rfl)
            · simp [parseDiffGo, hs, hp, hd, hc] at hmem
              exact ih (some h) o n
                (by intro h' hh; injection hh with hh; subst hh
                    exact hinv h rfl)
                hk hmem o₀ n₀ hmatch

/-! ### The shape invariant: every emitted line has the per-kind fields -/

theorem parseDiffGo_shape (rest : List String) :
    ∀ (cur : Option Hunk) (o n : Nat),
      (∀ h, cur = some h → ∀ l ∈ h.lines, lineShapeOK l = true) →
      ∀ hk ∈ parseDiffGo rest cur o n, ∀ l ∈ hk.lines, lineShapeOK l = true := by
  induction rest with
  | nil =>
    intro cur o n hinv hk hmem l hl
    cases cur with
    | none => simp [parseDiffGo] at hmem
    | some h =>
      simp [parseDiffGo] at hmem
      subst hmem
      exact hinv _ rfl l hl
  | cons line rest ih =>
    intro cur o n hinv hk hmem l hl
    by_cases hs : jsStartsWith line "@@"
    · have hnew : ∀ h, (some (⟨line, []⟩ : Hunk)) = some h →
          ∀ l' ∈ h.lines, lineShapeOK l' = true := by
        intro h' hh l' hl'
        injection hh with hh
        subst hh
        simp at hl'
      cases hm : matchHunkHeader line with
      | some p =>
        obtain ⟨o₂, n₂⟩ := p
        cases cur with
        | none =>
          simp [parseDiffGo, hs, hm] at hmem
          exact ih _ _ _ hnew hk hmem l hl
        | some h =>
          simp [parseDiffGo, hs, hm] at hmem
          rcases hmem with rfl | hin
          · exact hinv _ rfl l hl
          · exact ih _ _ _ hnew hk hin l hl
      | none =>
        cases cur with
        | none =>
          simp [parseDiffGo, hs, hm] at hmem
          exact ih _ _ _ hnew hk hmem l hl
        | some h =>
          simp [parseDiffGo, hs, hm] at hmem
          rcases hmem with rfl | hin
          · exact hinv _ rfl l hl
          · exact ih _ _ _ hnew hk hin l hl
    · cases cur with
      | none =>
        simp [parseDiffGo, hs] at hmem
        exact ih none o n (by intro h' hh; exact absurd hh (by simp))
          hk hmem l hl
      | some h =>
        have push : ∀ (x : DiffLine), lineShapeOK x = true →
            ∀ h', (some (⟨h.header, h.lines ++ [x]⟩ : Hunk)) = some h' →
            ∀ l' ∈ h'.lines, lineShapeOK l' = true := by
          intro x hx h' hh l' hl'
          injection hh with hh
          subst hh
          simp only [List.mem_append, List.mem_singleton] at hl'
          rcases hl' with hl' | rfl
          · exact hinv h rfl l' hl'
          · exact hx
        by_cases hp : jsStartsWith line "+"
        · simp [parseDiffGo, hs, hp] at hmem
          exact ih _ _ _ (push _ (by simp [lineShapeOK])) hk hmem l hl
        · by_cases hd : jsStartsWith line "-"
          · simp [parseDiffGo, hs, hp, hd] at hmem
            exact ih _ _ _ (push _ (by simp [lineShapeOK])) hk hmem l hl
          · by_cases hc : (jsStartsWith line " " || line == "") = true
            · simp [parseDiffGo, hs, hp, hd, hc] at hmem
              exact ih _ _ _ (push _ (by simp [lineShapeOK])) hk hmem l hl
            · simp [parseDiffGo, hs, hp, hd, hc] at hmem
              exact ih (some h) o n
                (by intro h' hh; injection hh with hh; subst hh
                    exact hinv h rfl)
                hk hmem l hl

/-! ### Structure of the first emitted hunk when a hunk is pending -/

/-- When a hunk is pending, the parser's output is nonempty and its first hunk
keeps the pending hunk's header, its lines extending the pending lines. -/
theorem parseDiffGo_some_head (rest : List String) :
    ∀ (h : Hunk) (o n : Nat),
      ∃ hk tl, parseDiffGo rest (some h) o n = hk :: tl ∧
        hk.header = h.header ∧ ∃ suffix, hk.lines = h.lines ++ suffix := by
  induction rest with
  | nil =>
    intro h o n
    exact ⟨h, [], by simp [parseDiffGo], rfl, [], by simp⟩
  | cons line rest ih =>
    intro h o n
    by_cases hs : jsStartsWith line "@@"
    · cases hm : matchHunkHeader line with
      | some p =>
        obtain ⟨o₂, n₂⟩ := p
        exact ⟨h, parseDiffGo rest (some ⟨line, []⟩) o₂ n₂,
          by simp [parseDiffGo, hs, hm], rfl, [], by simp⟩
      | none =>
        exact ⟨h, parseDiffGo rest (some ⟨line, []⟩) o n,
          by simp [parseDiffGo, hs, hm], rfl, [], by simp⟩
    · by_cases hp : jsStartsWith line "+"
      · obtain ⟨hk, tl, heq, hhd, suffix, hlines⟩ :=
          ih ⟨h.header, h.lines ++ [⟨.addition, jsSubstringFrom1 line, none, some n⟩]⟩
            o (n + 1)
        refine ⟨hk, tl, ?_, hhd,
          [⟨.addition, jsSubstringFrom1 line, none, some n⟩] ++ suffix, ?_⟩
        · rw [← heq]; simp [parseDiffGo, hs, hp]
        · rw [hlines]; simp
      · by_cases hd : jsStartsWith line "-"
        · obtain ⟨hk, tl, heq, hhd, suffix, hlines⟩ :=
            ih ⟨h.header, h.lines ++ [⟨.deletion, jsSubstringFrom1 line, some o, none⟩]⟩
              (o + 1) n
          refine ⟨hk, tl, ?_, hhd,
            [⟨.deletion, jsSubstringFrom1 line, some o, none⟩] ++ suffix, ?_⟩
          · rw [← heq]; simp [parseDiffGo, hs, hp, hd]
          · rw [hlines]; simp
        · by_cases hc : (jsStartsWith line " " || line == "") = true
          · obtain ⟨hk, tl, heq, hhd, suffix, hlines⟩ :=
              ih ⟨h.header, h.lines ++ [⟨.context, jsSubstringFrom1 line, some o, some n⟩]⟩
                (o + 1) (n + 1)
            refine ⟨hk, tl, ?_, hhd,
              [⟨.context, jsSubstringFrom1 line, some o, some n⟩] ++ suffix, ?_⟩
            · rw [← heq]; simp [parseDiffGo, hs, hp, hd, hc]
            · rw [hlines]; simp
          · obtain ⟨hk, tl, heq, hhd, suffix, hlines⟩ := ih h o n
            refine ⟨hk, tl, ?_, hhd, suffix, hlines⟩
            rw [← heq]; simp [parseDiffGo, hs, hp, hd, hc]

theorem firstOldZero_append_single (ls : List DiffLine) (x : DiffLine) :
    firstOldZero (ls ++ [x]) =
      (if noOldSide ls then firstOldZero [x] else firstOldZero ls) := by
  induction ls with
  | nil => simp [noOldSide]
  | cons l ls ih =>
    rcases l with ⟨t, c, a, b⟩
    cases t <;> simp [firstOldZero, noOldSide, isAddition, List.all_cons, ih]

theorem firstNewZero_append_single (ls : List DiffLine) (x : DiffLine) :
    firstNewZero (ls ++ [x]) =
      (if noNewSide ls then firstNewZero [x] else firstNewZero ls) := by
  induction ls with
  | nil => simp [noNewSide]
  | cons l ls ih =>
    rcases l with ⟨t, c, a, b⟩
    cases t <;> simp [firstNewZero, noNewSide, isDeletion, List.all_cons, ih]

/-- When a hunk is pending whose collected lines still satisfy the
zero-numbering conditions — and the counters are still 0 whenever no line has
consumed them — the first emitted hunk keeps the pending header and satisfies
the zero-numbering conditions. -/
theorem parseDiffGo_head_zero (rest : List String) :
    ∀ (h : Hunk) (o n : Nat),
      firstOldZero h.lines = true → firstNewZero h.lines = true →
      (noOldSide h.lines = true → o = 0) → (noNewSide h.lines = true → n = 0) →
      ∀ hk, (parseDiffGo rest (some h) o n).head? = some hk →
        hk.header = h.header ∧ firstOldZero hk.lines = true ∧
          firstNewZero hk.lines = true := by
  induction rest with
  | nil =>
    intro h o n h1 h2 _ _ hk hhead
    simp [parseDiffGo] at hhead
    subst hhead
    exact ⟨rfl, h1, h2⟩
  | cons line rest ih =>
    intro h o n h1 h2 ho hn hk hhead
    by_cases hs : jsStartsWith line "@@"
    · cases hm : matchHunkHeader line with
      | some p =>
        obtain ⟨o₂, n₂⟩ := p
        simp [parseDiffGo, hs, hm] at hhead
        subst hhead
        exact ⟨rfl, h1, h2⟩
      | none =>
        simp [parseDiffGo, hs, hm] at hhead
        subst hhead
        exact ⟨rfl, h1, h2⟩
    · by_cases hp : jsStartsWith line "+"
      · have hhead' : (parseDiffGo rest
            (some ⟨h.header, h.lines ++
              [⟨.addition, jsSubstringFrom1 line, none, some n⟩]⟩)
            o (n + 1)).head? = some hk := by
          rw [← hhead]; congr 1; simp [parseDiffGo, hs, hp]
        have res := ih ⟨h.header, h.lines ++
            [⟨.addition, jsSubstringFrom1 line, none, some n⟩]⟩ o (n + 1)
          (by rw [firstOldZero_append_single]
              split
              · simp [firstOldZero]
              · exact h1)
          (by rw [firstNewZero_append_single]
              split
              · rename_i hall
                simp [firstNewZero, hn hall]
              · exact h2)
          (by intro hall
              refine ho ?_
              simp only [noOldSide, List.all_append] at hall
              exact (Bool.and_eq_true _ _ |>.mp hall).1)
          (by intro hall
              simp only [noNewSide, List.all_append, List.all_cons,
                List.all_nil, isDeletion] at hall
              simp at hall)
          hk hhead'
        exact ⟨res.1, res.2.1, res.2.2⟩
      · by_cases hd : jsStartsWith line "-"
        · have hhead' : (parseDiffGo rest
              (some ⟨h.header, h.lines ++
                [⟨.deletion, jsSubstringFrom1 line, some o, none⟩]⟩)
              (o + 1) n).head? = some hk := by
            rw [← hhead]; congr 1; simp [parseDiffGo, hs, hp, hd]
          have res := ih ⟨h.header, h.lines ++
              [⟨.deletion, jsSubstringFrom1 line, some o, none⟩]⟩ (o + 1) n
            (by rw [firstOldZero_append_single]
                split
                · rename_i hall
                  simp [firstOldZero, ho hall]
                · exact h1)
            (by rw [firstNewZero_append_single]
                split
                · simp [firstNewZero]
                · exact h2)
            (by intro hall
                simp only [noOldSide, List.all_append, List.all_cons,
                  List.all_nil, isAddition] at hall
                simp at hall)
            (by intro hall
                refine hn ?_
                simp only [noNewSide, List.all_append] at hall
                exact (Bool.and_eq_true _ _ |>.mp hall).1)
            hk hhead'
          exact ⟨res.1, res.2.1, res.2.2⟩
        · by_cases hc : (jsStartsWith line " " || line == "") = true
          · have hhead' : (parseDiffGo rest
                (some ⟨h.header, h.lines ++
                  [⟨.context, jsSubstringFrom1 line, some o, some n⟩]⟩)
                (o + 1) (n + 1)).head? = some hk := by
              rw [← hhead]; congr 1; simp [parseDiffGo, hs, hp, hd, hc]
            have res := ih ⟨h.header, h.lines ++
                [⟨.context, jsSubstringFrom1 line, some o, some n⟩]⟩ (o + 1) (n + 1)
              (by rw [firstOldZero_append_single]
                  split
                  · rename_i hall
                    simp [firstOldZero, ho hall]
                  · exact h1)
              (by rw [firstNewZero_append_single]
                  split
                  · rename_i hall
                    simp [firstNewZero, hn hall]
                  · exact h2)
              (by intro hall
                  simp only [noOldSide, List.all_append, List.all_cons,
                    List.all_nil, isAddition] at hall
                  simp at hall)
              (by intro hall
                  simp only [noNewSide, List.all_append, List.all_cons,
                    List.all_nil, isDeletion] at hall
                  simp at hall)
              hk hhead'
            exact ⟨res.1, res.2.1, res.2.2⟩
          · have hhead' : (parseDiffGo rest (some h) o n).head? = some hk := by
              rw [← hhead]; congr 1; simp [parseDiffGo, hs, hp, hd, hc]
            exact ih h o n h1 h2 ho hn hk hhead'

theorem lookupKey_bump (m : List (String × Nat)) (k₀ k : String) :
    lookupKey (bump m k₀) k =
      if k = k₀ then some ((lookupKey m k).getD 0 + 1) else lookupKey m k := by
  induction m with
  | nil =>
    by_cases hk : k = k₀
    · subst hk; simp [bump, lookupKey]
    · simp [bump, lookupKey, hk, Ne.symm hk]
  | cons p m ih =>
    obtain ⟨k', n⟩ := p
    by_cases h1 : k' = k₀
    · subst h1
      by_cases h2 : k = k'
      · subst h2; simp [bump, lookupKey]
      · simp [bump, lookupKey, h2, Ne.symm h2]
    · by_cases h2 : k' = k
      · subst h2
        simp [bump, lookupKey, h1]
      · simp [bump, lookupKey, h1, h2, ih]

theorem lookupKey_buildKeyCounts (cs : List DiffComment) :
    ∀ (m : List (String × Nat)) (k : String),
      lookupKey (buildKeyCounts cs m) k =
        (if countForKey cs k = 0 then lookupKey m k
         else some ((lookupKey m k).getD 0 + countForKey cs k)) := by
  induction cs with
  | nil => intro m k; simp [buildKeyCounts, countForKey]
  | cons c cs ih =>
    intro m k
    have hstep : buildKeyCounts (c :: cs) m =
        buildKeyCounts cs (bump m (generateKeyFromComment c)) := rfl
    rw [hstep, ih]
    by_cases hk : k = generateKeyFromComment c
    · have hcount : countForKey (c :: cs) k = countForKey cs k + 1 := by
        simp [countForKey, List.filter_cons, hk.symm]
      rw [lookupKey_bump]
      simp only [if_pos hk, hcount]
      by_cases h0 : countForKey cs k = 0
      · simp [h0]
      · simp [h0]
        omega
    · have hcount : countForKey (c :: cs) k = countForKey cs k := by
        have : ¬(generateKeyFromComment c = k) := fun h => hk h.symm
        simp [countForKey, List.filter_cons, this]
      rw [lookupKey_bump]
      simp [if_neg hk, hcount]

/-- Lines that do not start with `@@` are dropped while no hunk is pending. -/
theorem parseDiffGo_skip_non_headers (pre : List String) :
    ∀ (tl : List String) (o n : Nat),
      (∀ l ∈ pre, jsStartsWith l "@@" = false) →
      parseDiffGo (pre ++ tl) none o n = parseDiffGo tl none o n := by
  induction pre with
  | nil => intro tl o n _; rfl
  | cons l pre ih =>
    intro tl o n hno
    have hl : jsStartsWith l "@@" = false := hno l (by simp)
    have : parseDiffGo ((l :: pre) ++ tl) none o n =
        parseDiffGo (pre ++ tl) none o n := by
      simp [parseDiffGo, hl]
    rw [this]
    exact ih tl o n (fun l' hl' => hno l' (by simp [hl']))

/-! ## The specification claims -/

/-- C1: the five-line input `@@ -1,2 +1,3 @@` / ` line1` / `-line2` /
`+line2-modified` / `+line3-new` parses to exactly one hunk whose header
matches with old start 1 and new start 1, with lines, in order: context
`line1` (old 1, new 1), deletion `line2` (old 2), addition `line2-modified`
(new 2), addition `line3-new` (new 3). -/
theorem c1_five_line_example :
    parseDiff ["@@ -1,2 +1,3 @@", " line1", "-line2", "+line2-modified",
        "+line3-new"] =
      [⟨"@@ -1,2 +1,3 @@",
        [⟨.context, "line1", some 1, some 1⟩,
         ⟨.deletion, "line2", some 2, none⟩,
         ⟨.addition, "line2-modified", none, some 2⟩,
         ⟨.addition, "line3-new", none, some 3⟩]⟩] ∧
    matchHunkHeader "@@ -1,2 +1,3 @@" = some (1, 1) := by
  decide

/-- C2: for every input and every output hunk whose `@@` header matches the
pattern with old start `o₀` and new start `n₀`, the hunk's lines carry exactly
the numbers `o₀, o₀+1, …` on its deletion/context lines in source order and
`n₀, n₀+1, …` on its addition/context lines in source order, the other side
being absent; `numberedFrom` states precisely this consecutive (hence strictly
increasing) assignment. -/
theorem c2_matched_header_numbering (lines : List String) (hk : Hunk)
    (hmem : hk ∈ parseDiff lines) (o₀ n₀ : Nat)
    (hmatch : matchHunkHeader hk.header = some (o₀, n₀)) :
    numberedFrom hk.lines o₀ n₀ = true :=
  parseDiffGo_numbered lines none 0 0
    (by intro h hh; exact absurd hh (by simp)) hk hmem o₀ n₀ hmatch

theorem c2_matched_header_numbering_witness :
    numberedFrom
      [⟨.context, "line1", some 1, some 1⟩,
       ⟨.deletion, "line2", some 2, none⟩,
       ⟨.addition, "line2-modified", none, some 2⟩,
       ⟨.addition, "line3-new", none, some 3⟩] 1 1 = true :=
  c2_matched_header_numbering
    ["@@ -1,2 +1,3 @@", " line1", "-line2", "+line2-modified", "+line3-new"]
    ⟨"@@ -1,2 +1,3 @@",
      [⟨.context, "line1", some 1, some 1⟩,
       ⟨.deletion, "line2", some 2, none⟩,
       ⟨.addition, "line2-modified", none, some 2⟩,
       ⟨.addition, "line3-new", none, some 3⟩]⟩
    (by decide) 1 1 (by decide)

/-- C3: every line of every hunk produced by `parseDiff` is one of the three
kinds (the `LineType` field), and satisfies the per-kind field shape: an
addition has `newLineNum` set and `oldLineNum` absent, a deletion has
`oldLineNum` set and `newLineNum` absent, a context line has both set. -/
theorem c3_line_shape (lines : List String) (hk : Hunk)
    (hmem : hk ∈ parseDiff lines) (l : DiffLine) (hl : l ∈ hk.lines) :
    lineShapeOK l = true :=
  parseDiffGo_shape lines none 0 0
    (by intro h hh; exact absurd hh (by simp)) hk hmem l hl

theorem c3_line_shape_witness :
    lineShapeOK ⟨.deletion, "line2", some 2, none⟩ = true :=
  c3_line_shape
    ["@@ -1,2 +1,3 @@", " line1", "-line2", "+line2-modified", "+line3-new"]
    ⟨"@@ -1,2 +1,3 @@",
      [⟨.context, "line1", some 1, some 1⟩,
       ⟨.deletion, "line2", some 2, none⟩,
       ⟨.addition, "line2-modified", none, some 2⟩,
       ⟨.addition, "line3-new", none, some 3⟩]⟩
    (by decide) ⟨.deletion, "line2", some 2, none⟩ (by decide)

/-- C4: `getComments` returns exactly the stored comments whose `filePath`,
`baseRef` and `compareRef` all equal the query exactly (including the
`working` sentinel); in particular a comment anchored at
`(main, feature)` never appears in the `(main, working)` context. -/
theorem c4_getComments_exact (all : List DiffComment) (fp : String)
    (b cr : Option String) (c : DiffComment) :
    (c ∈ getComments all fp b cr ↔
      c ∈ all ∧ c.filePath = fp ∧ c.baseRef = b ∧ c.compareRef = cr) ∧
    (c ∈ all → c.baseRef = some "main" → c.compareRef = some "feature" →
      c ∉ getComments all fp (some "main") (some "working")) := by
  constructor
  · simp [getComments, List.mem_filter, and_assoc]
  · intro _ _ hcr hcontra
    simp [getComments, List.mem_filter] at hcontra
    rw [hcr] at hcontra
    simp at hcontra

theorem c4_getComments_exact_witness :
    (⟨"1", "f.ts", 3, .context, "note", "me", 5, some "main", some "feature"⟩ :
        DiffComment) ∉
      getComments
        [⟨"1", "f.ts", 3, .context, "note", "me", 5, some "main",
          some "feature"⟩]
        "f.ts" (some "main") (some "working") :=
  (c4_getComments_exact
    [⟨"1", "f.ts", 3, .context, "note", "me", 5, some "main", some "feature"⟩]
    "f.ts" (some "main") (some "working")
    ⟨"1", "f.ts", 3, .context, "note", "me", 5, some "main",
      some "feature"⟩).2 (by decide) (by decide) (by decide)

/-- C5: the comments presented at one rendered line of one file's overlay
(`threadsFor`, the `renderHunks` filter over the `getComments` result) are in
creation-time order whenever the stored collection is (the collection is built
by appending at creation, so its stored order is creation order); ties keep
their stored order, since the result is a sublist of the stored collection.
Determinism is the last conjunct: the overlay is a pure function of its
inputs, so recomputing it yields the identical list. -/
theorem c5_thread_order (stored : List DiffComment) (fp : String)
    (b cr : Option String) (l : DiffLine)
    (hsorted : List.Sorted (fun c₁ c₂ => c₁.timestamp ≤ c₂.timestamp) stored) :
    List.Sorted (fun c₁ c₂ => c₁.timestamp ≤ c₂.timestamp)
        (threadsFor stored fp b cr l) ∧
      (threadsFor stored fp b cr l).Sublist stored ∧
      threadsFor stored fp b cr l = threadsFor stored fp b cr l := by
  have hsub : (threadsFor stored fp b cr l).Sublist stored :=
    (List.filter_sublist _).trans (List.filter_sublist _)
  exact ⟨hsorted.sublist hsub, hsub, rfl⟩

theorem c5_thread_order_witness :
    List.Sorted (fun c₁ c₂ : DiffComment => c₁.timestamp ≤ c₂.timestamp)
        (threadsFor
          [⟨"1", "f.ts", 1, .context, "x", "me", 0, some "a", some "b"⟩,
           ⟨"2", "f.ts", 1, .context, "y", "me", 1, some "a", some "b"⟩]
          "f.ts" (some "a") (some "b") ⟨.context, "c", some 1, some 1⟩) ∧
      (threadsFor
          [⟨"1", "f.ts", 1, .context, "x", "me", 0, some "a", some "b"⟩,
           ⟨"2", "f.ts", 1, .context, "y", "me", 1, some "a", some "b"⟩]
          "f.ts" (some "a") (some "b")
          ⟨.context, "c", some 1, some 1⟩).Sublist
        [⟨"1", "f.ts", 1, .context, "x", "me", 0, some "a", some "b"⟩,
         ⟨"2", "f.ts", 1, .context, "y", "me", 1, some "a", some "b"⟩] ∧
      threadsFor
          [⟨"1", "f.ts", 1, .context, "x", "me", 0, some "a", some "b"⟩,
           ⟨"2", "f.ts", 1, .context, "y", "me", 1, some "a", some "b"⟩]
          "f.ts" (some "a") (some "b") ⟨.context, "c", some 1, some 1⟩ =
        threadsFor
          [⟨"1", "f.ts", 1, .context, "x", "me", 0, some "a", some "b"⟩,
           ⟨"2", "f.ts", 1, .context, "y", "me", 1, some "a", some "b"⟩]
          "f.ts" (some "a") (some "b") ⟨.context, "c", some 1, some 1⟩ :=
  c5_thread_order
    [⟨"1", "f.ts", 1, .context, "x", "me", 0, some "a", some "b"⟩,
     ⟨"2", "f.ts", 1, .context, "y", "me", 1, some "a", some "b"⟩]
    "f.ts" (some "a") (some "b") ⟨.context, "c", some 1, some 1⟩ (by decide)

/-- C6: when the parser meets a line that begins with `@@` but fails the
header pattern while a well-formed hunk is pending, the pending hunk is
emitted unaltered as the next output element, the running counters keep their
prior values (they are passed through unchanged), and parsing continues: the
lines that follow are collected into a hunk headed by the malformed line,
which is itself emitted (the continuation's first hunk carries that header). -/
theorem c6_malformed_header_no_loss (bad : String) (rest : List String)
    (h : Hunk) (o n : Nat) (hs : jsStartsWith bad "@@" = true)
    (hm : matchHunkHeader bad = none) :
    parseDiffGo (bad :: rest) (some h) o n =
      h :: parseDiffGo rest (some ⟨bad, []⟩) o n ∧
    ∃ hk tl, parseDiffGo rest (some ⟨bad, []⟩) o n = hk :: tl ∧
      hk.header = bad := by
  constructor
  · simp [parseDiffGo, hs, hm]
  · obtain ⟨hk, tl, heq, hhd, -⟩ := parseDiffGo_some_head rest ⟨bad, []⟩ o n
    exact ⟨hk, tl, heq, hhd⟩

theorem c6_malformed_header_no_loss_witness :
    parseDiffGo ["@@ junk", " x"]
        (some ⟨"@@ -1,1 +1,1 @@", [⟨.context, "a", some 1, some 1⟩]⟩) 5 7 =
      ⟨"@@ -1,1 +1,1 @@", [⟨.context, "a", some 1, some 1⟩]⟩ ::
        parseDiffGo [" x"] (some ⟨"@@ junk", []⟩) 5 7 ∧
    ∃ hk tl, parseDiffGo [" x"] (some ⟨"@@ junk", []⟩) 5 7 = hk :: tl ∧
      hk.header = "@@ junk" :=
  c6_malformed_header_no_loss "@@ junk" [" x"]
    ⟨"@@ -1,1 +1,1 @@", [⟨.context, "a", some 1, some 1⟩]⟩ 5 7
    (by decide) (by decide)

/-- C7 counterexample: the claim says the comment anchor of an
addition/context line is its `newLineNum`, but the code computes
`line.newLineNum || line.oldLineNum`, and JavaScript's `||` treats the number
0 as falsy.  The input `@@ -1,0 +0,0 @@` / `+x` parses to an addition line
with `newLineNum = 0`; its code anchor is `""` (`none`), not `0`
(`specAnchorOf`, the claim's anchor), and a stored comment at line 0 of kind
addition does not attach to it although the claim says it must. -/
theorem c7_anchor_counterexample :
    parseDiff ["@@ -1,0 +0,0 @@", "+x"] =
      [⟨"@@ -1,0 +0,0 @@", [⟨.addition, "x", none, some 0⟩]⟩] ∧
    anchorOf ⟨.addition, "x", none, some 0⟩ = none ∧
    specAnchorOf ⟨.addition, "x", none, some 0⟩ = some 0 ∧
    anchorOf ⟨.addition, "x", none, some 0⟩ ≠
      specAnchorOf ⟨.addition, "x", none, some 0⟩ ∧
    lineCommentsFor
      [⟨"c0", "f.ts", 0, .addition, "hi", "me", 0, none, none⟩]
      ⟨.addition, "x", none, some 0⟩ = [] := by
  decide

/-- C7 amended: for every parsed line, the anchor is the `oldLineNum` when the
kind is deletion, and the `newLineNum` when the kind is addition or context
*provided that number is nonzero* (when it is 0 — possible only via a header
declaring a 0 start or a malformed header — JavaScript's `||` falls through to
the old side); and a comment attaches to a rendered line iff its `lineNumber`
equals the line's code anchor and its `lineType` equals the line's kind. -/
theorem c7_anchor_amended (lines : List String) (hk : Hunk)
    (hmem : hk ∈ parseDiff lines) (l : DiffLine) (hl : l ∈ hk.lines)
    (c : DiffComment) (comments : List DiffComment) :
    (l.type = .deletion → anchorOf l = l.oldLineNum) ∧
    (l.type ≠ .deletion → l.newLineNum ≠ some 0 → anchorOf l = l.newLineNum) ∧
    (c ∈ lineCommentsFor comments l ↔
      c ∈ comments ∧ anchorOf l = some c.lineNumber ∧ c.lineType = l.type) := by
  have hshape : lineShapeOK l = true :=
    parseDiffGo_shape lines none 0 0
      (by intro h hh; exact absurd hh (by simp)) hk hmem l hl
  refine ⟨?_, ?_, ?_⟩
  · intro hdel
    simp only [lineShapeOK, hdel, Bool.and_eq_true, beq_iff_eq] at hshape
    simp only [anchorOf, jsOrOpt, hshape.2, jsTruthy, Bool.false_eq_true,
      if_false]
  · intro hnd hnz
    have hb : l.newLineNum.isSome = true := by
      cases ht : l.type with
      | addition =>
        simp only [lineShapeOK, ht, Bool.and_eq_true, beq_iff_eq] at hshape
        exact hshape.2
      | deletion => exact absurd ht hnd
      | context =>
        simp only [lineShapeOK, ht, Bool.and_eq_true] at hshape
        exact hshape.2
    obtain ⟨k, hk'⟩ := Option.isSome_iff_exists.mp hb
    have hkne : k ≠ 0 := fun h0 => hnz (by rw [hk', h0])
    have ht : jsTruthy l.newLineNum = true := by
      rw [hk']
      simpa [jsTruthy] using hkne
    simp only [anchorOf, jsOrOpt, ht, if_true]
  · constructor
    · intro hmem2
      obtain ⟨hin, hcond⟩ := List.mem_filter.mp hmem2
      simp only [Bool.and_eq_true, beq_iff_eq] at hcond
      exact ⟨hin, hcond.1, hcond.2⟩
    · rintro ⟨hin, ha, htp⟩
      refine List.mem_filter.mpr ⟨hin, ?_⟩
      simp only [Bool.and_eq_true, beq_iff_eq]
      exact ⟨ha, htp⟩

theorem c7_anchor_amended_witness :
    (LineType.deletion = LineType.deletion →
      anchorOf ⟨.deletion, "line2", some 2, none⟩ = some 2) ∧
    (LineType.deletion ≠ LineType.deletion → (none : Option Nat) ≠ some 0 →
      anchorOf ⟨.deletion, "line2", some 2, none⟩ = none) ∧
    ((⟨"1", "f.ts", 2, .deletion, "why", "me", 5, none, none⟩ : DiffComment) ∈
        lineCommentsFor
          [⟨"1", "f.ts", 2, .deletion, "why", "me", 5, none, none⟩]
          ⟨.deletion, "line2", some 2, none⟩ ↔
      (⟨"1", "f.ts", 2, .deletion, "why", "me", 5, none, none⟩ : DiffComment) ∈
          [⟨"1", "f.ts", 2, .deletion, "why", "me", 5, none, none⟩] ∧
        anchorOf ⟨.deletion, "line2", some 2, none⟩ = some 2 ∧
        LineType.deletion = LineType.deletion) :=
  c7_anchor_amended
    ["@@ -1,2 +1,3 @@", " line1", "-line2", "+line2-modified", "+line3-new"]
    ⟨"@@ -1,2 +1,3 @@",
      [⟨.context, "line1", some 1, some 1⟩,
       ⟨.deletion, "line2", some 2, none⟩,
       ⟨.addition, "line2-modified", none, some 2⟩,
       ⟨.addition, "line3-new", none, some 3⟩]⟩
    (by decide) ⟨.deletion, "line2", some 2, none⟩ (by decide)
    ⟨"1", "f.ts", 2, .deletion, "why", "me", 5, none, none⟩
    [⟨"1", "f.ts", 2, .deletion, "why", "me", 5, none, none⟩]

/-- C8: grouping comments by diff context maps a comment with
`compareRef = "working"` to `"<baseRef> → Working Directory"`, a comment with
both refs set to concrete (nonempty, non-`working`) branch names to
`"<baseRef> → <compareRef>"`, a comment with neither ref set to the literal
`"Unknown"`; and the count the `keyMap` loop records for a key equals the
number of comments whose generated key it is (absent exactly when that number
is 0). -/
theorem c8_context_grouping (comments : List DiffComment) (c : DiffComment)
    (b cr k : String) :
    (c.compareRef = some "working" →
      generateKeyFromComment c = jsToString c.baseRef ++ " → Working Directory") ∧
    (c.baseRef = some b → c.compareRef = some cr → b ≠ "" → cr ≠ "" →
      cr ≠ "working" → generateKeyFromComment c = b ++ " → " ++ cr) ∧
    (c.baseRef = none → c.compareRef = none →
      generateKeyFromComment c = "Unknown") ∧
    lookupKey (buildKeyCounts comments []) k =
      (if countForKey comments k = 0 then none
       else some (countForKey comments k)) := by
  refine ⟨?_, ?_, ?_, ?_⟩
  · intro hw
    simp [generateKeyFromComment, hw]
  · intro hb hcr hbne hcne hw
    simp [generateKeyFromComment, hb, hcr, strTruthy, jsToString, hbne, hcne, hw]
  · intro hb hcr
    simp [generateKeyFromComment, hb, hcr, strTruthy]
  · rw [lookupKey_buildKeyCounts]
    simp [lookupKey]

theorem c8_context_grouping_witness :
    ((⟨"1", "f.ts", 1, .context, "x", "me", 0, some "main",
          some "working"⟩ : DiffComment).compareRef = some "working" →
      generateKeyFromComment
          ⟨"1", "f.ts", 1, .context, "x", "me", 0, some "main",
            some "working"⟩ =
        jsToString (some "main") ++ " → Working Directory") ∧
    generateKeyFromComment
        ⟨"1", "f.ts", 1, .context, "x", "me", 0, some "main",
          some "working"⟩ = "main → Working Directory" ∧
    lookupKey
        (buildKeyCounts
          [⟨"1", "f.ts", 1, .context, "x", "me", 0, some "main",
            some "working"⟩] [])
        "main → Working Directory" = some 1 := by
  refine ⟨fun hw => ?_, by decide, ?_⟩
  · exact (c8_context_grouping [] ⟨"1", "f.ts", 1, .context, "x", "me", 0,
      some "main", some "working"⟩ "b" "cr" "k").1 hw
  · have h4 := (c8_context_grouping
      [⟨"1", "f.ts", 1, .context, "x", "me", 0, some "main", some "working"⟩]
      ⟨"1", "f.ts", 1, .context, "x", "me", 0, some "main", some "working"⟩
      "b" "cr" "main → Working Directory").2.2.2
    rw [h4]
    decide

/-- C9: removing all comments of a context keeps exactly the comments whose
`(baseRef, compareRef)` pair differs from the given pair, unchanged and in
their original relative order (the result is a sublist of the input — the
embedding of `Array.prototype.filter`, which returns a new array); on the
two-comment example `[{a,b}, {a,c}]`, removal with `(a, b)` returns exactly
the second comment. -/
theorem c9_remove_context (all : List DiffComment) (b cr : Option String)
    (c : DiffComment) :
    (c ∈ removeAllCommentsForKey all b cr ↔
      c ∈ all ∧ ¬(c.baseRef = b ∧ c.compareRef = cr)) ∧
    (removeAllCommentsForKey all b cr).Sublist all ∧
    removeAllCommentsForKey
        [⟨"1", "f.ts", 1, .context, "x", "me", 0, some "a", some "b"⟩,
         ⟨"2", "f.ts", 2, .context, "y", "me", 1, some "a", some "c"⟩]
        (some "a") (some "b") =
      [⟨"2", "f.ts", 2, .context, "y", "me", 1, some "a", some "c"⟩] := by
  refine ⟨?_, List.filter_sublist _, by decide⟩
  simp [removeAllCommentsForKey, List.mem_filter, not_and]
  intro _
  tauto

theorem c9_remove_context_witness :
    ((⟨"2", "f.ts", 2, .context, "y", "me", 1, some "a", some "c"⟩ :
          DiffComment) ∈
        removeAllCommentsForKey
          [⟨"1", "f.ts", 1, .context, "x", "me", 0, some "a", some "b"⟩,
           ⟨"2", "f.ts", 2, .context, "y", "me", 1, some "a", some "c"⟩]
          (some "a") (some "b") ↔
      (⟨"2", "f.ts", 2, .context, "y", "me", 1, some "a", some "c"⟩ :
            DiffComment) ∈
          [⟨"1", "f.ts", 1, .context, "x", "me", 0, some "a", some "b"⟩,
           ⟨"2", "f.ts", 2, .context, "y", "me", 1, some "a", some "c"⟩] ∧
        ¬((some "a" : Option String) = some "a" ∧
          (some "c" : Option String) = some "b")) ∧
    (removeAllCommentsForKey
        [⟨"1", "f.ts", 1, .context, "x", "me", 0, some "a", some "b"⟩,
         ⟨"2", "f.ts", 2, .context, "y", "me", 1, some "a", some "c"⟩]
        (some "a") (some "b")).Sublist
      [⟨"1", "f.ts", 1, .context, "x", "me", 0, some "a", some "b"⟩,
       ⟨"2", "f.ts", 2, .context, "y", "me", 1, some "a", some "c"⟩] ∧
    removeAllCommentsForKey
        [⟨"1", "f.ts", 1, .context, "x", "me", 0, some "a", some "b"⟩,
         ⟨"2", "f.ts", 2, .context, "y", "me", 1, some "a", some "c"⟩]
        (some "a") (some "b") =
      [⟨"2", "f.ts", 2, .context, "y", "me", 1, some "a", some "c"⟩] :=
  c9_remove_context
    [⟨"1", "f.ts", 1, .context, "x", "me", 0, some "a", some "b"⟩,
     ⟨"2", "f.ts", 2, .context, "y", "me", 1, some "a", some "c"⟩]
    (some "a") (some "b")
    ⟨"2", "f.ts", 2, .context, "y", "me", 1, some "a", some "c"⟩

/-- C10: the counters start at 0 (not uninitialized): when the first `@@` line
of the input fails the header pattern (lines before it, none starting with
`@@`, are dropped), the first output hunk is headed by that line and is
numbered from 0 — its first deletion-or-context line carries `oldLineNum 0`
and its first addition-or-context line carries `newLineNum 0`. -/
theorem c10_counters_start_at_zero (pre : List String) (bad : String)
    (rest : List String)
    (hpre : ∀ l ∈ pre, jsStartsWith l "@@" = false)
    (hs : jsStartsWith bad "@@" = true)
    (hm : matchHunkHeader bad = none)
    (hk : Hunk)
    (hhead : (parseDiff (pre ++ bad :: rest)).head? = some hk) :
    hk.header = bad ∧ firstOldZero hk.lines = true ∧
      firstNewZero hk.lines = true := by
  have h1 : parseDiff (pre ++ bad :: rest) = parseDiffGo (bad :: rest) none 0 0 :=
    parseDiffGo_skip_non_headers pre (bad :: rest) 0 0 hpre
  have h2 : parseDiffGo (bad :: rest) none 0 0 =
      parseDiffGo rest (some ⟨bad, []⟩) 0 0 := by
    simp [parseDiffGo, hs, hm]
  rw [h1, h2] at hhead
  exact parseDiffGo_head_zero rest ⟨bad, []⟩ 0 0 (by simp [firstOldZero])
    (by simp [firstNewZero]) (fun _ => rfl) (fun _ => rfl) hk hhead

theorem c10_counters_start_at_zero_witness :
    (⟨"@@ bad", [⟨.deletion, "a", some 0, none⟩,
        ⟨.addition, "b", none, some 0⟩]⟩ : Hunk).header = "@@ bad" ∧
    firstOldZero [⟨.deletion, "a", some 0, none⟩,
      ⟨.addition, "b", none, some 0⟩] = true ∧
    firstNewZero [⟨.deletion, "a", some 0, none⟩,
      ⟨.addition, "b", none, some 0⟩] = true :=
  c10_counters_start_at_zero ["junk"] "@@ bad" ["-a", "+b"]
    (by decide) (by decide) (by decide)
    ⟨"@@ bad", [⟨.deletion, "a", some 0, none⟩, ⟨.addition, "b", none, some 0⟩]⟩
    (by decide)

end Difff
